import Mathlib

/-!
Shallow embedding of the lagged-coherence estimator of `neurodsp/rhythm/lc.py`
(functions `lagged_coherence`, `_lagged_coherence_1freq`, `_nonoverlapping_chunks`)
in exact arithmetic, together with theorems settling the specification's claims.
-/

open Finset
open scoped Real ComplexConjugate

/-- Embeds `_nonoverlapping_chunks(sig, n_samples)` (lc.py lines 101-107):
`n_chunks = floor(len(sig) / n_samples)`; the first `n_chunks * n_samples`
samples are reshaped into `n_chunks` rows of `n_samples` samples each. -/
def nonoverlappingChunks (sig : List ℝ) (nSamples : ℕ) : List (List ℝ) :=
  let nChunks := sig.length / nSamples
  let truncated := sig.take (nChunks * nSamples)
  (List.range nChunks).map fun i => (truncated.drop (i * nSamples)).take nSamples

/-- Embeds `np.arange(start, stop, step)` for rational arguments and positive
`step`, in exact arithmetic: `max 0 ⌈(stop - start) / step⌉` values
`start + k * step` for `k = 0, 1, ...`. -/
def arange (start stop step : ℚ) : List ℚ :=
  (List.range (⌈(stop - start) / step⌉).toNat).map fun k : ℕ => start + (k : ℚ) * step

/-- Embeds line 52 of lc.py:
`freqs = np.arange(f_range[0], f_range[1] + f_step, f_step)`. -/
def lcFreqs (low high step : ℚ) : List ℚ :=
  arange low (high + step) step

/-- Embeds `np.argmin`: the index of the first occurrence of the minimum value
of the list (numpy documents that ties return the first minimal index). -/
def argmin {α : Type} [LinearOrder α] : List α → ℕ
  | [] => 0
  | [_] => 0
  | x :: y :: ys =>
      if x ≤ (y :: ys).getD (argmin (y :: ys)) y then 0 else argmin (y :: ys) + 1

lemma getD_default_irrel {α : Type} (l : List α) (i : ℕ) (h : i < l.length) (d d' : α) :
    l.getD i d = l.getD i d' := by
  simp [List.getD_eq_getElem?_getD, List.getElem?_eq_getElem h]

lemma argmin_lt_length {α : Type} [LinearOrder α] :
    ∀ (l : List α), l ≠ [] → argmin l < l.length
  | [], h => absurd rfl h
  | [_], _ => by simp [argmin]
  | x :: y :: ys, _ => by
      rw [argmin]
      split
      · simp
      · have := argmin_lt_length (y :: ys) (by simp)
        simpa using Nat.succ_lt_succ this

lemma argmin_le {α : Type} [LinearOrder α] :
    ∀ (l : List α) (d : α) (j : ℕ), j < l.length →
      l.getD (argmin l) d ≤ l.getD j d
  | [], _, j, hj => by simp at hj
  | [x], d, j, hj => by
      have hj0 : j = 0 := Nat.lt_one_iff.mp (by simpa using hj)
      subst hj0
      simp [argmin]
  | x :: y :: ys, d, j, hj => by
      have hlt := argmin_lt_length (y :: ys) (by simp)
      rw [argmin]
      split
      · rename_i hcase
        match j with
        | 0 => simp
        | j + 1 =>
            have hj' : j < (y :: ys).length := by simpa using hj
            have h1 : (y :: ys).getD (argmin (y :: ys)) y ≤ (y :: ys).getD j d :=
              (getD_default_irrel _ _ hlt y d) ▸ argmin_le (y :: ys) d j hj'
            simpa using le_trans hcase h1
      · rename_i hcase
        push_neg at hcase
        match j with
        | 0 =>
            have : (y :: ys).getD (argmin (y :: ys)) d ≤ x := by
              rw [getD_default_irrel _ _ hlt d y]; exact le_of_lt hcase
            simpa using this
        | j + 1 =>
            have hj' : j < (y :: ys).length := by simpa using hj
            simpa using argmin_le (y :: ys) d j hj'

lemma argmin_first {α : Type} [LinearOrder α] :
    ∀ (l : List α) (d : α) (j : ℕ), j < argmin l →
      l.getD (argmin l) d < l.getD j d
  | [], _, j, hj => by simp [argmin] at hj
  | [x], d, j, hj => by simp [argmin] at hj
  | x :: y :: ys, d, j, hj => by
      have hlt := argmin_lt_length (y :: ys) (by simp)
      rw [argmin] at hj ⊢
      by_cases hcase : x ≤ (y :: ys).getD (argmin (y :: ys)) y
      · rw [if_pos hcase] at hj
        omega
      · rw [if_neg hcase] at hj ⊢
        push_neg at hcase
        match j with
        | 0 =>
            have : (y :: ys).getD (argmin (y :: ys)) d < x := by
              rw [getD_default_irrel _ _ hlt d y]; exact hcase
            simpa using this
        | j + 1 =>
            have hj' : j < argmin (y :: ys) := by omega
            simpa using argmin_first (y :: ys) d j hj'

lemma join_chunks (n : ℕ) :
    ∀ (m : ℕ) (t : List ℝ), t.length = m * n →
      ((List.range m).map fun i => ((t.drop (i * n)).take n)).flatten = t
  | 0, t, ht => by
      have : t = [] := List.eq_nil_of_length_eq_zero (by simpa using ht)
      simp [this]
  | m + 1, t, ht => by
      have hlen : (t.drop n).length = m * n := by
        simp [ht, Nat.add_mul]
      have hrec := join_chunks n m (t.drop n) hlen
      rw [List.range_succ_eq_map, List.map_cons, List.flatten_cons, List.map_map]
      have hcomp : ((fun i => ((t.drop (i * n)).take n)) ∘ Nat.succ)
          = fun i => (((t.drop n).drop (i * n)).take n) := by
        funext i
        simp only [Function.comp_apply]
        rw [Nat.succ_mul, List.drop_drop, Nat.add_comm]
      rw [hcomp, hrec]
      simp

lemma nonoverlappingChunks_truncated_length (sig : List ℝ) (n : ℕ) :
    (sig.take (sig.length / n * n)).length = sig.length / n * n := by
  simp [List.length_take, Nat.le_of_eq, Nat.min_eq_left (Nat.div_mul_le_self _ _)]

/-- C2: for every signal and every `n_samples ≥ 1`, chunking returns exactly
`⌊L / n_samples⌋` chunks, each of exactly `n_samples` samples, whose
concatenation is the signal's first `n_chunks * n_samples` samples, and in
particular the empty chunk set when `L < n_samples`. -/
theorem nonoverlappingChunks_spec (sig : List ℝ) (n : ℕ) (hn : 1 ≤ n) :
    (nonoverlappingChunks sig n).length = sig.length / n ∧
    (∀ c ∈ nonoverlappingChunks sig n, c.length = n) ∧
    (nonoverlappingChunks sig n).flatten = sig.take (sig.length / n * n) ∧
    (sig.length < n → nonoverlappingChunks sig n = []) := by
  have htr := nonoverlappingChunks_truncated_length sig n
  refine ⟨by simp [nonoverlappingChunks], ?_, ?_, ?_⟩
  · intro c hc
    simp only [nonoverlappingChunks, List.mem_map, List.mem_range] at hc
    obtain ⟨i, hi, rfl⟩ := hc
    have hfit : i * n + n ≤ sig.length / n * n := by
      calc i * n + n = (i + 1) * n := by ring
      _ ≤ sig.length / n * n := Nat.mul_le_mul_right n (by omega)
    simp only [List.length_take, List.length_drop, htr]
    omega
  · simpa [nonoverlappingChunks] using
      join_chunks n (sig.length / n) (sig.take (sig.length / n * n)) htr
  · intro hlt
    have : sig.length / n = 0 := Nat.div_eq_of_lt hlt
    simp [nonoverlappingChunks, this]

/-- C2 witness: a concrete instantiation of `nonoverlappingChunks_spec`. -/
theorem nonoverlappingChunks_spec_witness :
    1 ≤ 2 ∧
    ((nonoverlappingChunks [1, 2, 3, 4, 5] 2).length = [1, 2, 3, 4, 5].length / 2 ∧
    (∀ c ∈ nonoverlappingChunks [1, 2, 3, 4, 5] 2, c.length = 2) ∧
    (nonoverlappingChunks [1, 2, 3, 4, 5] 2).flatten =
      [1, 2, 3, 4, 5].take ([1, 2, 3, 4, 5].length / 2 * 2) ∧
    ([(1 : ℝ), 2, 3, 4, 5].length < 2 → nonoverlappingChunks [1, 2, 3, 4, 5] 2 = [])) :=
  ⟨by norm_num, nonoverlappingChunks_spec [1, 2, 3, 4, 5] 2 (by norm_num)⟩

/-- C5 counterexample: with `f_range = [1, 5/2]` and `f_step = 1`, the code's
sequence `np.arange(1, 5/2 + 1, 1)` is `[1, 2, 3]`, so the last generated value
is `3 > 5/2`: it is not the largest step-reachable value `≤ f_range[1]`. -/
theorem lcFreqs_last_exceeds_high :
    lcFreqs 1 (5 / 2) 1 = [1, 2, 3] ∧ ¬ ((3 : ℚ) ≤ 5 / 2) := by
  constructor
  · have h : (⌈((5 / 2 : ℚ) + 1 - 1) / 1⌉) = 3 := by
      rw [Int.ceil_eq_iff]
      norm_num
    simp only [lcFreqs, arange, h]
    norm_num [show Int.toNat 3 = 3 from rfl, List.range_succ]
  · norm_num

/-- C5 amended: for `0 < f_step` and `low ≤ high`, the frequency sequence is the
arithmetic progression `low, low + f_step, ...` of `⌈(high + f_step - low) / f_step⌉`
terms: it is nonempty, every generated value is `< high + f_step` (so the last value
may exceed `high`, by less than `f_step`, when `high - low` is not a multiple of
`f_step`), one more step would reach at least `high + f_step`, and `high` itself is
generated whenever it lands exactly on a step. -/
theorem lcFreqs_spec (low high step : ℚ) (hstep : 0 < step) (hle : low ≤ high) :
    ∃ n : ℕ,
      lcFreqs low high step = (List.range n).map (fun k : ℕ => low + (k : ℚ) * step) ∧
      0 < n ∧
      (∀ x ∈ lcFreqs low high step, x < high + step) ∧
      high + step ≤ low + (n : ℚ) * step ∧
      (∀ m : ℕ, high = low + (m : ℚ) * step → high ∈ lcFreqs low high step) := by
  have hr1 : 1 ≤ (high + step - low) / step := by
    rw [le_div_iff₀ hstep]; linarith
  have hceil_pos : 0 < ⌈(high + step - low) / step⌉ := by
    by_contra hc
    push_neg at hc
    have h1 := Int.le_ceil ((high + step - low) / step)
    have h2 : ((⌈(high + step - low) / step⌉ : ℚ)) ≤ 0 := by exact_mod_cast hc
    linarith
  have hcast : ((⌈(high + step - low) / step⌉.toNat : ℤ)) = ⌈(high + step - low) / step⌉ :=
    Int.toNat_of_nonneg hceil_pos.le
  have hunfold : lcFreqs low high step =
      (List.range (⌈(high + step - low) / step⌉).toNat).map
        (fun k : ℕ => low + (k : ℚ) * step) := rfl
  refine ⟨(⌈(high + step - low) / step⌉).toNat, hunfold, by omega, ?_, ?_, ?_⟩
  · intro x hx
    rw [hunfold] at hx
    simp only [List.mem_map, List.mem_range] at hx
    obtain ⟨k, hk, rfl⟩ := hx
    have hk' : (k : ℤ) < ⌈(high + step - low) / step⌉ := by omega
    have hklt : ((k : ℤ) : ℚ) < (high + step - low) / step := Int.lt_ceil.mp hk'
    have hmul : ((k : ℤ) : ℚ) * step < high + step - low := (lt_div_iff₀ hstep).mp hklt
    push_cast at hmul
    linarith
  · have hge := Int.le_ceil ((high + step - low) / step)
    have hmul : high + step - low ≤ ((⌈(high + step - low) / step⌉ : ℚ)) * step :=
      (div_le_iff₀ hstep).mp hge
    have hq : ((⌈(high + step - low) / step⌉.toNat : ℚ)) =
        ((⌈(high + step - low) / step⌉ : ℚ)) := by exact_mod_cast hcast
    rw [hq]
    linarith
  · intro m hm
    have hrm : (high + step - low) / step = (m : ℚ) + 1 := by
      rw [hm]
      field_simp
      ring
    have hceil : ⌈(high + step - low) / step⌉ = (m : ℤ) + 1 := by
      rw [hrm]
      exact_mod_cast Int.ceil_intCast ((m : ℤ) + 1)
    have hmem : m < (⌈(high + step - low) / step⌉).toNat := by omega
    rw [hunfold]
    simp only [List.mem_map, List.mem_range]
    exact ⟨m, hmem, hm.symm⟩

/-- C5 amended witness: `lcFreqs_spec` instantiated at `low = 1`, `high = 3`,
`f_step = 1`. -/
theorem lcFreqs_spec_witness :
    (0 : ℚ) < 1 ∧ (1 : ℚ) ≤ 3 ∧
    (∃ n : ℕ,
      lcFreqs 1 3 1 = (List.range n).map (fun k : ℕ => 1 + (k : ℚ) * 1) ∧
      0 < n ∧
      (∀ x ∈ lcFreqs 1 3 1, x < 3 + 1) ∧
      (3 : ℚ) + 1 ≤ 1 + (n : ℚ) * 1 ∧
      (∀ m : ℕ, (3 : ℚ) = 1 + (m : ℚ) * 1 → (3 : ℚ) ∈ lcFreqs 1 3 1)) :=
  ⟨by norm_num, by norm_num, lcFreqs_spec 1 3 1 (by norm_num) (by norm_num)⟩

/-- Embeds `scipy.signal.windows.hann(M)` (symmetric), sample `j`:
`0.5 - 0.5 * cos(2 * pi * j / (M - 1))`, and all-ones for `M ≤ 1`
(scipy's small-window guard). -/
noncomputable def hann (M : ℕ) (j : ℕ) : ℝ :=
  if M ≤ 1 then 1 else 1 / 2 - 1 / 2 * Real.cos (2 * π * j / ((M : ℝ) - 1))

/-- Embeds the array `hann(n_samps)` of lc.py line 84. -/
noncomputable def hannWindow (M : ℕ) : List ℝ :=
  (List.range M).map (hann M)

/-- Embeds `np.fft.fftfreq(n, d)[k]`: `k / (d * n)` for the first `(n + 1) / 2`
bins and `(k - n) / (d * n)` for the rest. -/
noncomputable def fftfreq (n : ℕ) (d : ℝ) (k : ℕ) : ℝ :=
  if k < (n + 1) / 2 then (k : ℝ) / (d * n) else ((k : ℝ) - n) / (d * n)

/-- Embeds `np.fft.fft(x)[k]`: the discrete Fourier coefficient
`sum_j x[j] * exp(-2 * pi * i * j * k / len(x))`. -/
noncomputable def dftCoef (x : List ℝ) (k : ℕ) : ℂ :=
  ∑ j in Finset.range x.length,
    (x.getD j 0 : ℂ) * Complex.exp (-2 * π * Complex.I * j * k / x.length)

/-- Embeds lc.py lines 85-86: `np.argmin(np.abs(fftfreq(n, 1/fs) - freq))`. -/
noncomputable def fftFreqsIdx (n : ℕ) (fs freq : ℝ) : ℕ :=
  argmin ((List.range n).map fun k : ℕ => |fftfreq n (1 / fs) k - freq|)

/-- Embeds lc.py line 76: `n_samps = int(np.ceil(n_cycles * fs / freq))`
(for a positive argument, `int` truncation of the ceiling is the ceiling). -/
noncomputable def lcNSamps (freq fs nCycles : ℝ) : ℕ :=
  (⌈nCycles * fs / freq⌉).toNat

/-- Embeds lc.py lines 79-90: the list `fft_coefs`, one tapered Fourier
coefficient at the selected bin per non-overlapping chunk. -/
noncomputable def lcCoefs (sig : List ℝ) (freq fs nCycles : ℝ) : List ℂ :=
  let n := lcNSamps freq fs nCycles
  (nonoverlappingChunks sig n).map fun chunk =>
    dftCoef (List.zipWith (· * ·) chunk (hannWindow n)) (fftFreqsIdx n fs freq)

/-- Embeds lc.py lines 93-95: `lcs_num`, the sum over adjacent chunk pairs of
`fft_coefs[ind] * conj(fft_coefs[ind + 1])`. -/
noncomputable def lcNum (coefs : List ℂ) : ℂ :=
  ∑ i in Finset.range (coefs.length - 1), coefs.getD i 0 * conj (coefs.getD (i + 1) 0)

/-- Embeds lc.py line 96: `lcs_denom`, the square root of the product of the
energies of `fft_coefs[:-1]` and `fft_coefs[1:]`. -/
noncomputable def lcDenom (coefs : List ℂ) : ℝ :=
  Real.sqrt ((∑ i in Finset.range (coefs.length - 1), Complex.abs (coefs.getD i 0) ^ 2) *
    (∑ i in Finset.Ico 1 coefs.length, Complex.abs (coefs.getD i 0) ^ 2))

/-- Result of an IEEE floating-point computation in exact arithmetic: a finite
real value, NaN, or an infinity of either sign collapsed to one marker. -/
inductive FVal : Type where
  | val : ℝ → FVal
  | nan : FVal
  | inf : FVal

/-- Exact-arithmetic model of `np.abs(num / denom)` for a complex `num` and a
nonnegative real `denom` (lc.py line 98): a finite value when `denom ≠ 0`,
IEEE NaN for `0 / 0`, and an infinite magnitude for `num ≠ 0` over `denom = 0`. -/
noncomputable def absDivIEEE (num : ℂ) (denom : ℝ) : FVal :=
  if denom = 0 then (if num = 0 then FVal.nan else FVal.inf)
  else FVal.val (Complex.abs (num / (denom : ℂ)))

/-- Embeds `_lagged_coherence_1freq(sig, freq, fs, n_cycles)` (lc.py lines 72-98). -/
noncomputable def laggedCoherence1Freq (sig : List ℝ) (freq fs nCycles : ℝ) : FVal :=
  absDivIEEE (lcNum (lcCoefs sig freq fs nCycles)) (lcDenom (lcCoefs sig freq fs nCycles))

/-- Embeds `np.isnan` on an `FVal`. -/
def isNan : FVal → Bool
  | FVal.nan => true
  | _ => false

/-- Tests the infinite marker of an `FVal`. -/
def isInf : FVal → Bool
  | FVal.inf => true
  | _ => false

/-- Finite payload of an `FVal`. -/
def fval : FVal → ℝ
  | FVal.val x => x
  | _ => 0

/-- Exact-arithmetic model of `np.mean` over a float sequence: NaN for the empty
sequence, NaN as soon as some entry is NaN, an infinity if some entry is the
(single-signed) infinite marker, and otherwise the arithmetic mean. -/
noncomputable def npMean (l : List FVal) : FVal :=
  if l.length = 0 then FVal.nan
  else if l.any isNan then FVal.nan
  else if l.any isInf then FVal.inf
  else FVal.val ((l.map fval).sum / l.length)

/-- Return value of `lagged_coherence`: either the pair
`(lc spectrum, freqs)` or the mean lagged coherence. -/
inductive LCOutput : Type where
  | spectrum : List FVal → List ℚ → LCOutput
  | mean : FVal → LCOutput

/-- Embeds `lagged_coherence(sig, f_range, fs, n_cycles, f_step, return_spectrum,
verbose)` (lc.py lines 14-69). The second component counts the diagnostic
notices printed by lines 57-63: one exactly when some value is NaN and
`verbose` is set, zero otherwise. -/
noncomputable def laggedCoherence (sig : List ℝ) (low high : ℚ) (fs nCycles : ℝ)
    (fStep : ℚ) (returnSpectrum verbose : Bool) : LCOutput × ℕ :=
  let freqs := lcFreqs low high fStep
  let lc := freqs.map fun f : ℚ => laggedCoherence1Freq sig (f : ℝ) fs nCycles
  let warnCount := if 0 < lc.countP isNan ∧ verbose = true then 1 else 0
  (if returnSpectrum then LCOutput.spectrum lc freqs
   else LCOutput.mean (npMean lc), warnCount)

lemma getD_map_range {β : Type} (n j : ℕ) (hj : j < n) (f : ℕ → β) (d : β) :
    (((List.range n).map f).getD j d) = f j := by
  rw [List.getD_eq_getElem?_getD, List.getElem?_map, List.getElem?_range hj]
  rfl

/-- C6: for every window length `n_samples ≥ 1`, sampling rate and target
frequency, the selected bin `fftFreqsIdx` lies in range, its grid frequency
minimizes the absolute distance to `freq` over all bins of the FFT frequency
grid, and every earlier bin has strictly greater distance (ties go to the
first minimal-distance index). -/
theorem fftFreqsIdx_spec (n : ℕ) (fs freq : ℝ) (hn : 1 ≤ n) :
    fftFreqsIdx n fs freq < n ∧
    (∀ j, j < n → |fftfreq n (1 / fs) (fftFreqsIdx n fs freq) - freq| ≤
      |fftfreq n (1 / fs) j - freq|) ∧
    (∀ j, j < fftFreqsIdx n fs freq →
      |fftfreq n (1 / fs) (fftFreqsIdx n fs freq) - freq| <
      |fftfreq n (1 / fs) j - freq|) := by
  have hne : ((List.range n).map fun k : ℕ => |fftfreq n (1 / fs) k - freq|) ≠ [] := by
    simp only [ne_eq, List.map_eq_nil_iff, List.range_eq_nil]
    omega
  have hlen : ((List.range n).map fun k : ℕ => |fftfreq n (1 / fs) k - freq|).length = n := by
    simp
  have hidx : argmin ((List.range n).map fun k : ℕ => |fftfreq n (1 / fs) k - freq|) < n := by
    have := argmin_lt_length _ hne
    rwa [hlen] at this
  refine ⟨hidx, ?_, ?_⟩
  · intro j hj
    have h := argmin_le ((List.range n).map fun k : ℕ => |fftfreq n (1 / fs) k - freq|) 0 j
      (by rwa [hlen])
    rw [getD_map_range n _ hidx, getD_map_range n _ hj] at h
    exact h
  · intro j hj
    have hjn : j < n := lt_trans hj hidx
    have h := argmin_first ((List.range n).map fun k : ℕ => |fftfreq n (1 / fs) k - freq|) 0 j hj
    rw [getD_map_range n _ hidx, getD_map_range n _ hjn] at h
    exact h

/-- C6 witness: `fftFreqsIdx_spec` instantiated at `n = 1`, `fs = 1`, `freq = 1`. -/
theorem fftFreqsIdx_spec_witness :
    1 ≤ 1 ∧
    (fftFreqsIdx 1 1 1 < 1 ∧
    (∀ j, j < 1 → |fftfreq 1 (1 / 1) (fftFreqsIdx 1 1 1) - 1| ≤
      |fftfreq 1 (1 / 1) j - 1|) ∧
    (∀ j, j < fftFreqsIdx 1 1 1 →
      |fftfreq 1 (1 / 1) (fftFreqsIdx 1 1 1) - 1| <
      |fftfreq 1 (1 / 1) j - 1|)) :=
  ⟨le_refl 1, fftFreqsIdx_spec 1 1 1 (le_refl 1)⟩

lemma lcDenom_nonneg (coefs : List ℂ) : 0 ≤ lcDenom coefs :=
  Real.sqrt_nonneg _

lemma lcDenom_eq_zero_iff (coefs : List ℂ) :
    lcDenom coefs = 0 ↔
      (∑ i in Finset.range (coefs.length - 1), Complex.abs (coefs.getD i 0) ^ 2) = 0 ∨
      (∑ i in Finset.Ico 1 coefs.length, Complex.abs (coefs.getD i 0) ^ 2) = 0 := by
  have hX : 0 ≤ ∑ i in Finset.range (coefs.length - 1), Complex.abs (coefs.getD i 0) ^ 2 :=
    Finset.sum_nonneg fun i _ => sq_nonneg _
  have hY : 0 ≤ ∑ i in Finset.Ico 1 coefs.length, Complex.abs (coefs.getD i 0) ^ 2 :=
    Finset.sum_nonneg fun i _ => sq_nonneg _
  rw [lcDenom, Real.sqrt_eq_zero']
  constructor
  · intro h
    exact mul_eq_zero.mp (le_antisymm h (mul_nonneg hX hY))
  · intro h
    rcases h with h | h
    · rw [h, zero_mul]
    · rw [h, mul_zero]

lemma lcNum_eq_zero_of_lcDenom_eq_zero (coefs : List ℂ) (h : lcDenom coefs = 0) :
    lcNum coefs = 0 := by
  rcases (lcDenom_eq_zero_iff coefs).mp h with hX | hY
  · have hzero := (Finset.sum_eq_zero_iff_of_nonneg
      (fun i _ => sq_nonneg (Complex.abs (coefs.getD i 0)))).mp hX
    refine Finset.sum_eq_zero fun i hi => ?_
    have habs : Complex.abs (coefs.getD i 0) = 0 :=
      pow_eq_zero_iff two_ne_zero |>.mp (hzero i hi)
    rw [Complex.abs.eq_zero.mp habs, zero_mul]
  · have hzero := (Finset.sum_eq_zero_iff_of_nonneg
      (fun i _ => sq_nonneg (Complex.abs (coefs.getD i 0)))).mp hY
    refine Finset.sum_eq_zero fun i hi => ?_
    have hmem : i + 1 ∈ Finset.Ico 1 coefs.length := by
      rw [Finset.mem_range] at hi
      rw [Finset.mem_Ico]
      omega
    have habs : Complex.abs (coefs.getD (i + 1) 0) = 0 :=
      pow_eq_zero_iff two_ne_zero |>.mp (hzero (i + 1) hmem)
    rw [Complex.abs.eq_zero.mp habs, map_zero, mul_zero]

lemma abs_lcNum_le_lcDenom (coefs : List ℂ) :
    Complex.abs (lcNum coefs) ≤ lcDenom coefs := by
  have h1 : Complex.abs (lcNum coefs) ≤
      ∑ i in Finset.range (coefs.length - 1),
        Complex.abs (coefs.getD i 0) * Complex.abs (coefs.getD (i + 1) 0) := by
    refine le_trans (AbsoluteValue.sum_le Complex.abs _ _) (le_of_eq ?_)
    refine Finset.sum_congr rfl fun i _ => ?_
    rw [map_mul, Complex.abs_conj]
  have h2 := sum_mul_sq_le_sq_mul_sq (Finset.range (coefs.length - 1))
    (fun i => Complex.abs (coefs.getD i 0)) (fun i => Complex.abs (coefs.getD (i + 1) 0))
  have hA : 0 ≤ ∑ i in Finset.range (coefs.length - 1),
      Complex.abs (coefs.getD i 0) * Complex.abs (coefs.getD (i + 1) 0) :=
    Finset.sum_nonneg fun i _ => mul_nonneg (Complex.abs.nonneg _) (Complex.abs.nonneg _)
  have hX : 0 ≤ ∑ i in Finset.range (coefs.length - 1), Complex.abs (coefs.getD i 0) ^ 2 :=
    Finset.sum_nonneg fun i _ => sq_nonneg _
  have hY : 0 ≤ ∑ i in Finset.range (coefs.length - 1),
      Complex.abs (coefs.getD (i + 1) 0) ^ 2 :=
    Finset.sum_nonneg fun i _ => sq_nonneg _
  have h3 : (∑ i in Finset.Ico 1 coefs.length, Complex.abs (coefs.getD i 0) ^ 2) =
      ∑ i in Finset.range (coefs.length - 1), Complex.abs (coefs.getD (i + 1) 0) ^ 2 := by
    rw [Finset.sum_Ico_eq_sum_range]
    exact Finset.sum_congr rfl fun i _ => by rw [Nat.add_comm 1 i]
  have h4 : ∑ i in Finset.range (coefs.length - 1),
      Complex.abs (coefs.getD i 0) * Complex.abs (coefs.getD (i + 1) 0) ≤ lcDenom coefs := by
    rw [lcDenom, h3, Real.le_sqrt hA (mul_nonneg hX hY)]
    exact h2
  exact le_trans h1 h4

/-- C3: whenever there are at least two chunks and the denominator is nonzero,
the single-frequency lagged coherence is a finite value in `[0, 1]`. -/
theorem laggedCoherence1Freq_in_unit_interval (sig : List ℝ) (freq fs nCycles : ℝ)
    (hchunks : 2 ≤ (lcCoefs sig freq fs nCycles).length)
    (hdenom : lcDenom (lcCoefs sig freq fs nCycles) ≠ 0) :
    ∃ r : ℝ, laggedCoherence1Freq sig freq fs nCycles = FVal.val r ∧ 0 ≤ r ∧ r ≤ 1 := by
  have hpos : 0 < lcDenom (lcCoefs sig freq fs nCycles) :=
    lt_of_le_of_ne (lcDenom_nonneg _) (Ne.symm hdenom)
  refine ⟨Complex.abs (lcNum (lcCoefs sig freq fs nCycles) /
      ((lcDenom (lcCoefs sig freq fs nCycles) : ℝ) : ℂ)), ?_, Complex.abs.nonneg _, ?_⟩
  · rw [laggedCoherence1Freq, absDivIEEE, if_neg hdenom]
  · rw [map_div₀, Complex.abs_ofReal, abs_of_nonneg (lcDenom_nonneg _), div_le_one hpos]
    exact abs_lcNum_le_lcDenom _

lemma lcDenom_eq_zero_of_short (coefs : List ℂ) (h : coefs.length < 2) :
    lcDenom coefs = 0 := by
  have h0 : coefs.length - 1 = 0 := by omega
  rw [lcDenom, h0]
  simp

/-- C4: with fewer than two chunks, or a zero denominator, the single-frequency
estimator returns the NaN sentinel (and in particular never an infinite value). -/
theorem laggedCoherence1Freq_nan_on_degenerate (sig : List ℝ) (freq fs nCycles : ℝ)
    (h : (lcCoefs sig freq fs nCycles).length < 2 ∨
      lcDenom (lcCoefs sig freq fs nCycles) = 0) :
    laggedCoherence1Freq sig freq fs nCycles = FVal.nan ∧
    laggedCoherence1Freq sig freq fs nCycles ≠ FVal.inf := by
  have hd : lcDenom (lcCoefs sig freq fs nCycles) = 0 := by
    rcases h with h | h
    · exact lcDenom_eq_zero_of_short _ h
    · exact h
  have hn : lcNum (lcCoefs sig freq fs nCycles) = 0 :=
    lcNum_eq_zero_of_lcDenom_eq_zero _ hd
  have heq : laggedCoherence1Freq sig freq fs nCycles = FVal.nan := by
    rw [laggedCoherence1Freq, absDivIEEE, if_pos hd, if_pos hn]
  refine ⟨heq, ?_⟩
  rw [heq]
  intro hcontra
  exact FVal.noConfusion hcontra

/-- C4 witness: the empty signal yields no chunks, hence NaN. -/
theorem laggedCoherence1Freq_nan_witness :
    ((lcCoefs [] 1 1 1).length < 2 ∨ lcDenom (lcCoefs [] 1 1 1) = 0) ∧
    (laggedCoherence1Freq [] 1 1 1 = FVal.nan ∧
     laggedCoherence1Freq [] 1 1 1 ≠ FVal.inf) :=
  ⟨Or.inl (by simp [lcCoefs, nonoverlappingChunks]),
   laggedCoherence1Freq_nan_on_degenerate [] 1 1 1
     (Or.inl (by simp [lcCoefs, nonoverlappingChunks]))⟩

lemma lcCoefs_ones : lcCoefs [1, 1] 1 1 1 = [1, 1] := by
  have hns : lcNSamps 1 1 1 = 1 := by
    have h1 : (1 * 1 / 1 : ℝ) = 1 := by norm_num
    rw [lcNSamps, h1, Int.ceil_one]
    rfl
  have hch : nonoverlappingChunks [1, 1] 1 = [[1], [1]] := by
    norm_num [nonoverlappingChunks, List.range_succ]
  have hhw : hannWindow 1 = [1] := by
    rw [hannWindow, show List.range 1 = [0] from rfl, List.map_cons, List.map_nil, hann]
    norm_num
  have hidx : fftFreqsIdx 1 1 1 = 0 := by
    simp [fftFreqsIdx, argmin]
  simp only [lcCoefs, hns, hch, hhw, hidx]
  norm_num [dftCoef, Complex.exp_zero]

lemma lcDenom_ones : lcDenom (lcCoefs [1, 1] 1 1 1) = 1 := by
  rw [lcCoefs_ones, lcDenom]
  norm_num [Finset.sum_Ico_eq_sum_range, Real.sqrt_one]

/-- C3 witness: a two-sample constant signal at `freq = fs = n_cycles = 1` has
two chunks and unit denominator, so the theorem applies. -/
theorem laggedCoherence1Freq_in_unit_interval_witness :
    2 ≤ (lcCoefs [1, 1] 1 1 1).length ∧
    lcDenom (lcCoefs [1, 1] 1 1 1) ≠ 0 ∧
    ∃ r : ℝ, laggedCoherence1Freq [1, 1] 1 1 1 = FVal.val r ∧ 0 ≤ r ∧ r ≤ 1 :=
  ⟨by rw [lcCoefs_ones]; norm_num,
   by rw [lcDenom_ones]; norm_num,
   laggedCoherence1Freq_in_unit_interval [1, 1] 1 1 1
     (by rw [lcCoefs_ones]; norm_num) (by rw [lcDenom_ones]; norm_num)⟩

lemma npMean_eq_nan_of_mem (l : List FVal) (h : FVal.nan ∈ l) :
    npMean l = FVal.nan := by
  have hlen : ¬ (l.length = 0) := by
    intro h0
    rw [List.length_eq_zero] at h0
    rw [h0] at h
    exact List.not_mem_nil _ h
  have hany : l.any isNan = true := by
    rw [List.any_eq_true]
    exact ⟨FVal.nan, h, rfl⟩
  rw [npMean, if_neg hlen, if_pos hany]

/-- C7: the `return_spectrum = False` result is the arithmetic mean of the
per-frequency values the `return_spectrum = True` call returns over the same
frequency sequence, and a NaN among those values propagates to the mean. -/
theorem laggedCoherence_mean_of_spectrum (sig : List ℝ) (low high : ℚ) (fs nCycles : ℝ)
    (fStep : ℚ) (verbose : Bool) :
    ∃ lc : List FVal,
      (laggedCoherence sig low high fs nCycles fStep true verbose).1 =
        LCOutput.spectrum lc (lcFreqs low high fStep) ∧
      (laggedCoherence sig low high fs nCycles fStep false verbose).1 =
        LCOutput.mean (npMean lc) ∧
      (FVal.nan ∈ lc → npMean lc = FVal.nan) := by
  refine ⟨(lcFreqs low high fStep).map fun f : ℚ => laggedCoherence1Freq sig (f : ℝ) fs nCycles,
    rfl, rfl, ?_⟩
  exact npMean_eq_nan_of_mem _

/-- C7 witness: `laggedCoherence_mean_of_spectrum` at a concrete invocation. -/
theorem laggedCoherence_mean_of_spectrum_witness :
    ∃ lc : List FVal,
      (laggedCoherence [] 1 2 1 1 1 true true).1 = LCOutput.spectrum lc (lcFreqs 1 2 1) ∧
      (laggedCoherence [] 1 2 1 1 1 false true).1 = LCOutput.mean (npMean lc) ∧
      (FVal.nan ∈ lc → npMean lc = FVal.nan) :=
  laggedCoherence_mean_of_spectrum [] 1 2 1 1 1 true

/-- C8: with `return_spectrum` set, the returned value sequence is indexed by the
generated frequency progression: the output is the spectrum of per-frequency
estimates paired with exactly `lcFreqs`, and both sequences have equal length. -/
theorem laggedCoherence_spectrum_lengths (sig : List ℝ) (low high : ℚ) (fs nCycles : ℝ)
    (fStep : ℚ) (verbose : Bool) :
    (laggedCoherence sig low high fs nCycles fStep true verbose).1 =
      LCOutput.spectrum
        ((lcFreqs low high fStep).map fun f : ℚ => laggedCoherence1Freq sig (f : ℝ) fs nCycles)
        (lcFreqs low high fStep) ∧
    ((lcFreqs low high fStep).map fun f : ℚ =>
      laggedCoherence1Freq sig (f : ℝ) fs nCycles).length = (lcFreqs low high fStep).length := by
  exact ⟨rfl, by simp⟩

/-- C9: exactly one diagnostic notice is emitted per call when some per-frequency
value is NaN and `verbose` is enabled, none otherwise, and the emission does not
alter the returned value (the output is independent of `verbose`). -/
theorem laggedCoherence_warning_spec (sig : List ℝ) (low high : ℚ) (fs nCycles : ℝ)
    (fStep : ℚ) (returnSpectrum verbose : Bool) :
    ((∃ v ∈ (lcFreqs low high fStep).map
        (fun f : ℚ => laggedCoherence1Freq sig (f : ℝ) fs nCycles), isNan v = true) ∧
      verbose = true →
      (laggedCoherence sig low high fs nCycles fStep returnSpectrum verbose).2 = 1) ∧
    ((∀ v ∈ (lcFreqs low high fStep).map
        (fun f : ℚ => laggedCoherence1Freq sig (f : ℝ) fs nCycles), isNan v = false) ∨
      verbose = false →
      (laggedCoherence sig low high fs nCycles fStep returnSpectrum verbose).2 = 0) ∧
    (laggedCoherence sig low high fs nCycles fStep returnSpectrum true).1 =
      (laggedCoherence sig low high fs nCycles fStep returnSpectrum false).1 := by
  refine ⟨?_, ?_, rfl⟩
  · intro ⟨hex, hv⟩
    have hpos : 0 < ((lcFreqs low high fStep).map
        (fun f : ℚ => laggedCoherence1Freq sig (f : ℝ) fs nCycles)).countP isNan :=
      List.countP_pos_iff.mpr hex
    show (if 0 < ((lcFreqs low high fStep).map
        (fun f : ℚ => laggedCoherence1Freq sig (f : ℝ) fs nCycles)).countP isNan ∧
        verbose = true then 1 else 0) = 1
    rw [if_pos ⟨hpos, hv⟩]
  · intro h
    show (if 0 < ((lcFreqs low high fStep).map
        (fun f : ℚ => laggedCoherence1Freq sig (f : ℝ) fs nCycles)).countP isNan ∧
        verbose = true then 1 else 0) = 0
    rcases h with h | h
    · have hzero : ((lcFreqs low high fStep).map
          (fun f : ℚ => laggedCoherence1Freq sig (f : ℝ) fs nCycles)).countP isNan = 0 :=
        List.countP_eq_zero.mpr fun a ha => by rw [h a ha]; exact Bool.false_ne_true
      rw [if_neg]
      intro ⟨hpos, _⟩
      omega
    · rw [if_neg]
      intro ⟨_, hv⟩
      rw [h] at hv
      exact Bool.false_ne_true hv

/-- C9 witness: `laggedCoherence_warning_spec` at a concrete invocation. -/
theorem laggedCoherence_warning_spec_witness :
    ((∃ v ∈ (lcFreqs 1 2 1).map
        (fun f : ℚ => laggedCoherence1Freq [] (f : ℝ) 1 1), isNan v = true) ∧
      true = true →
      (laggedCoherence [] 1 2 1 1 1 true true).2 = 1) ∧
    ((∀ v ∈ (lcFreqs 1 2 1).map
        (fun f : ℚ => laggedCoherence1Freq [] (f : ℝ) 1 1), isNan v = false) ∨
      true = false →
      (laggedCoherence [] 1 2 1 1 1 true true).2 = 0) ∧
    (laggedCoherence [] 1 2 1 1 1 true true).1 =
      (laggedCoherence [] 1 2 1 1 1 true false).1 :=
  laggedCoherence_warning_spec [] 1 2 1 1 1 true true

/-- C10: when the generated frequency sequence is empty, the call raises nothing
and returns the empty spectrum with the empty frequency sequence, or NaN as the
mean of an empty sequence, with no notice emitted. -/
theorem laggedCoherence_empty_freqs (sig : List ℝ) (low high : ℚ) (fs nCycles : ℝ)
    (fStep : ℚ) (verbose : Bool) (hempty : lcFreqs low high fStep = []) :
    laggedCoherence sig low high fs nCycles fStep true verbose =
      (LCOutput.spectrum [] [], 0) ∧
    laggedCoherence sig low high fs nCycles fStep false verbose =
      (LCOutput.mean FVal.nan, 0) := by
  constructor
  · simp [laggedCoherence, hempty]
  · simp [laggedCoherence, hempty, npMean]

/-- C10 witness: the inverted range `[5, 1]` with unit step generates no
frequencies. -/
theorem laggedCoherence_empty_freqs_witness :
    lcFreqs 5 1 1 = [] ∧
    (laggedCoherence [] 5 1 1 1 1 true true = (LCOutput.spectrum [] [], 0) ∧
     laggedCoherence [] 5 1 1 1 1 false true = (LCOutput.mean FVal.nan, 0)) := by
  have hemp : lcFreqs 5 1 1 = [] := by
    have h : (((1 : ℚ) + 1 - 5) / 1) = ((-3 : ℤ) : ℚ) := by norm_num
    rw [lcFreqs, arange, h, Int.ceil_intCast]
    rfl
  exact ⟨hemp, laggedCoherence_empty_freqs [] 5 1 1 1 1 true hemp⟩

lemma getD_map {α β : Type} (l : List α) (f : α → β) (i : ℕ) (hi : i < l.length)
    (d : α) (d' : β) :
    (l.map f).getD i d' = f (l.getD i d) := by
  rw [List.getD_eq_getElem?_getD, List.getElem?_map, List.getElem?_eq_getElem hi]
  rw [List.getD_eq_getElem?_getD, List.getElem?_eq_getElem hi]
  rfl

lemma nonoverlappingChunks_length (sig : List ℝ) (n : ℕ) :
    (nonoverlappingChunks sig n).length = sig.length / n := by
  simp [nonoverlappingChunks]

lemma nonoverlappingChunks_getD (sig : List ℝ) (n i : ℕ) (hi : i < sig.length / n) :
    (nonoverlappingChunks sig n).getD i [] =
      ((sig.take (sig.length / n * n)).drop (i * n)).take n := by
  simp only [nonoverlappingChunks]
  exact getD_map_range (sig.length / n) i hi _ []

lemma nonoverlappingChunks_getD_length (sig : List ℝ) (n i : ℕ)
    (hi : i < sig.length / n) :
    ((nonoverlappingChunks sig n).getD i []).length = n := by
  rw [nonoverlappingChunks_getD sig n i hi]
  have htr := nonoverlappingChunks_truncated_length sig n
  have hfit : i * n + n ≤ sig.length / n * n := by
    calc i * n + n = (i + 1) * n := by ring
    _ ≤ sig.length / n * n := Nat.mul_le_mul_right n (by omega)
  simp only [List.length_take, List.length_drop, htr]
  omega

lemma nonoverlappingChunks_elem (sig : List ℝ) (n i j : ℕ) (hi : i < sig.length / n)
    (hj : j < n) :
    ((nonoverlappingChunks sig n).getD i []).getD j 0 = sig.getD (i * n + j) 0 := by
  rw [nonoverlappingChunks_getD sig n i hi]
  have hfit : i * n + j < sig.length / n * n := by
    have h1 : i * n + n ≤ sig.length / n * n := by
      calc i * n + n = (i + 1) * n := by ring
      _ ≤ sig.length / n * n := Nat.mul_le_mul_right n (by omega)
    omega
  rw [List.getD_eq_getElem?_getD, List.getElem?_take_of_lt hj, List.getElem?_drop,
    List.getElem?_take_of_lt hfit, List.getD_eq_getElem?_getD]

lemma hannWindow_length (n : ℕ) : (hannWindow n).length = n := by
  simp [hannWindow]

lemma hannWindow_getD (n j : ℕ) (hj : j < n) : (hannWindow n).getD j 0 = hann n j :=
  getD_map_range n j hj _ 0

lemma zipWith_mul_getD (a b : List ℝ) (j : ℕ) (hja : j < a.length) (hjb : j < b.length) :
    (List.zipWith (· * ·) a b).getD j 0 = a.getD j 0 * b.getD j 0 := by
  rw [List.getD_eq_getElem?_getD, List.getElem?_zipWith',
    List.getElem?_eq_getElem hja, List.getElem?_eq_getElem hjb,
    List.getD_eq_getElem?_getD, List.getElem?_eq_getElem hja,
    List.getD_eq_getElem?_getD, List.getElem?_eq_getElem hjb]
  rfl

lemma lcCoefs_length (sig : List ℝ) (freq fs nCycles : ℝ) :
    (lcCoefs sig freq fs nCycles).length = sig.length / lcNSamps freq fs nCycles := by
  simp [lcCoefs, nonoverlappingChunks_length]

/-- Follows the specification's words for step 5 of the single-frequency
estimator: coefficient `i` is the tapered discrete Fourier coefficient of chunk
`i` at the selected bin, written directly over the signal's samples:
`sum_j sig[i * n + j] * hann[j] * exp(-2 pi I j idx / n)` with
`n = ceil(n_cycles * fs / freq)` (which is `lcNSamps`). -/
noncomputable def specCoef (sig : List ℝ) (freq fs nCycles : ℝ) (i : ℕ) : ℂ :=
  ∑ j in Finset.range (lcNSamps freq fs nCycles),
    ((sig.getD (i * lcNSamps freq fs nCycles + j) 0 * hann (lcNSamps freq fs nCycles) j : ℝ) : ℂ) *
      Complex.exp (-2 * π * Complex.I * j * (fftFreqsIdx (lcNSamps freq fs nCycles) fs freq) /
        (lcNSamps freq fs nCycles))

/-- Follows the specification's words for the single-frequency estimator
(spec 4.2): window length `ceil(n_cycles * fs / freq)`, `floor(L / n)` chunks,
one tapered Fourier coefficient per chunk at the selected bin (`specCoef`),
numerator summing `coef[i] * conj(coef[i+1])` over `i = 0 .. n_chunks - 2`,
denominator `sqrt((sum of |coef[i]|^2, i < n_chunks - 1) * (sum of |coef[i]|^2,
1 <= i < n_chunks))`, result `|numerator| / denominator`, and NaN when the
denominator is zero or undefined (in particular when `n_chunks < 2`). -/
noncomputable def laggedCoherenceAtSpec (sig : List ℝ) (freq fs nCycles : ℝ) : FVal :=
  let nChunks := sig.length / lcNSamps freq fs nCycles
  let num := ∑ i in Finset.range (nChunks - 1),
    specCoef sig freq fs nCycles i * conj (specCoef sig freq fs nCycles (i + 1))
  let denom := Real.sqrt
    ((∑ i in Finset.range (nChunks - 1), Complex.abs (specCoef sig freq fs nCycles i) ^ 2) *
     (∑ i in Finset.Ico 1 nChunks, Complex.abs (specCoef sig freq fs nCycles i) ^ 2))
  if denom = 0 then FVal.nan else FVal.val (Complex.abs num / denom)

lemma lcCoefs_getD_eq_specCoef (sig : List ℝ) (freq fs nCycles : ℝ) (i : ℕ)
    (hi : i < sig.length / lcNSamps freq fs nCycles) :
    (lcCoefs sig freq fs nCycles).getD i 0 = specCoef sig freq fs nCycles i := by
  have hchl : ((nonoverlappingChunks sig (lcNSamps freq fs nCycles)).getD i []).length =
      lcNSamps freq fs nCycles :=
    nonoverlappingChunks_getD_length sig (lcNSamps freq fs nCycles) i hi
  have hmap : (lcCoefs sig freq fs nCycles).getD i 0 =
      dftCoef (List.zipWith (· * ·)
        ((nonoverlappingChunks sig (lcNSamps freq fs nCycles)).getD i [])
        (hannWindow (lcNSamps freq fs nCycles)))
        (fftFreqsIdx (lcNSamps freq fs nCycles) fs freq) := by
    simp only [lcCoefs]
    rw [getD_map (nonoverlappingChunks sig (lcNSamps freq fs nCycles)) _ i
      (by rw [nonoverlappingChunks_length]; exact hi) [] 0]
  rw [hmap, dftCoef]
  have hxlen : (List.zipWith (· * ·)
      ((nonoverlappingChunks sig (lcNSamps freq fs nCycles)).getD i [])
      (hannWindow (lcNSamps freq fs nCycles))).length = lcNSamps freq fs nCycles := by
    rw [List.length_zipWith, hchl, hannWindow_length]
    exact Nat.min_self _
  rw [hxlen, specCoef]
  refine Finset.sum_congr rfl fun j hj => ?_
  rw [Finset.mem_range] at hj
  rw [zipWith_mul_getD _ _ j (by rw [hchl]; exact hj)
    (by rw [hannWindow_length]; exact hj)]
  rw [nonoverlappingChunks_elem sig (lcNSamps freq fs nCycles) i j hi hj]
  rw [hannWindow_getD (lcNSamps freq fs nCycles) j hj]

/-- C1: for positive `freq`, `fs` and `n_cycles`, the single-frequency estimator
is exactly the specification's formula: window length `ceil(n_cycles * fs / freq)`,
one tapered Fourier coefficient per chunk at the selected bin, and result
`|numerator| / denominator` with the stated numerator and denominator sums (NaN
when the denominator vanishes, per the claim's sources). -/
theorem laggedCoherence1Freq_eq_spec (sig : List ℝ) (freq fs nCycles : ℝ)
    (hfreq : 0 < freq) (hfs : 0 < fs) (hncyc : 0 < nCycles) :
    laggedCoherence1Freq sig freq fs nCycles = laggedCoherenceAtSpec sig freq fs nCycles := by
  have hlen : (lcCoefs sig freq fs nCycles).length = sig.length / lcNSamps freq fs nCycles :=
    lcCoefs_length sig freq fs nCycles
  have hnum : lcNum (lcCoefs sig freq fs nCycles) =
      ∑ i in Finset.range (sig.length / lcNSamps freq fs nCycles - 1),
        specCoef sig freq fs nCycles i * conj (specCoef sig freq fs nCycles (i + 1)) := by
    rw [lcNum, hlen]
    refine Finset.sum_congr rfl fun i hi => ?_
    rw [Finset.mem_range] at hi
    rw [lcCoefs_getD_eq_specCoef sig freq fs nCycles i (by omega),
      lcCoefs_getD_eq_specCoef sig freq fs nCycles (i + 1) (by omega)]
  have hden : lcDenom (lcCoefs sig freq fs nCycles) =
      Real.sqrt
        ((∑ i in Finset.range (sig.length / lcNSamps freq fs nCycles - 1),
          Complex.abs (specCoef sig freq fs nCycles i) ^ 2) *
         (∑ i in Finset.Ico 1 (sig.length / lcNSamps freq fs nCycles),
          Complex.abs (specCoef sig freq fs nCycles i) ^ 2)) := by
    rw [lcDenom, hlen]
    congr 1
    congr 1
    · refine Finset.sum_congr rfl fun i hi => ?_
      rw [Finset.mem_range] at hi
      rw [lcCoefs_getD_eq_specCoef sig freq fs nCycles i (by omega)]
    · refine Finset.sum_congr rfl fun i hi => ?_
      rw [Finset.mem_Ico] at hi
      rw [lcCoefs_getD_eq_specCoef sig freq fs nCycles i (by omega)]
  have hspec : laggedCoherenceAtSpec sig freq fs nCycles =
      if Real.sqrt
        ((∑ i in Finset.range (sig.length / lcNSamps freq fs nCycles - 1),
          Complex.abs (specCoef sig freq fs nCycles i) ^ 2) *
         (∑ i in Finset.Ico 1 (sig.length / lcNSamps freq fs nCycles),
          Complex.abs (specCoef sig freq fs nCycles i) ^ 2)) = 0
      then FVal.nan
      else FVal.val (Complex.abs
        (∑ i in Finset.range (sig.length / lcNSamps freq fs nCycles - 1),
          specCoef sig freq fs nCycles i * conj (specCoef sig freq fs nCycles (i + 1))) /
        Real.sqrt
        ((∑ i in Finset.range (sig.length / lcNSamps freq fs nCycles - 1),
          Complex.abs (specCoef sig freq fs nCycles i) ^ 2) *
         (∑ i in Finset.Ico 1 (sig.length / lcNSamps freq fs nCycles),
          Complex.abs (specCoef sig freq fs nCycles i) ^ 2))) := rfl
  rw [laggedCoherence1Freq, hnum, hden, hspec, absDivIEEE]
  split
  · rename_i hD
    have hN : (∑ i in Finset.range (sig.length / lcNSamps freq fs nCycles - 1),
        specCoef sig freq fs nCycles i * conj (specCoef sig freq fs nCycles (i + 1))) = 0 := by
      rw [← hnum]
      exact lcNum_eq_zero_of_lcDenom_eq_zero _ (by rw [hden]; exact hD)
    rw [if_pos hN]
  · rename_i hD
    congr 1
    rw [map_div₀, Complex.abs_ofReal, abs_of_nonneg (Real.sqrt_nonneg _)]

/-- C1 witness: `laggedCoherence1Freq_eq_spec` at positive concrete parameters. -/
theorem laggedCoherence1Freq_eq_spec_witness :
    (0 : ℝ) < 1 ∧
    laggedCoherence1Freq [1, 1] 1 1 1 = laggedCoherenceAtSpec [1, 1] 1 1 1 :=
  ⟨one_pos, laggedCoherence1Freq_eq_spec [1, 1] 1 1 1 one_pos one_pos one_pos⟩
